import Mathlib

/-!
Verification of the `ingredient` recipe-line parser (`src/lib.rs`).

Shallow embedding of the nom-based ingredient-line parser. A parser over
`&str` is modelled as a function `List Char → Option (List Char × α)`
(`some (rest, value)` on success, `none` on failure; the nom
`Error`/`Failure` distinction is conflated into `none`, which is the only
observable distinction at the public API of this crate). Numeric values,
`f32` in the source, are modelled as exact rationals: every numeric literal
exercised by the claims (quarters, eighths, halves, decimal fractions with
short expansions) is exactly representable in `f32`, so `f32` arithmetic
agrees with `Rat` arithmetic on them; `⅓` is modelled by the exact `1/3`
where `f32` stores the nearest float `0.33333334`.

nom primitives are modelled from their documented semantics for `&str`
input: `alpha1` = one or more ASCII letters, `space0`/`space1` = runs of
`' '`/`'\t'`, `tag`, `char`, `satisfy`, `opt` (never fails), `alt`
(first success), `many1` (collects until failure; error on a zero-length
inner match), `not_line_ending` (consumes up to `"\r\n"`/`'\n'` or the end;
fails on a `'\r'` not followed by `'\n'`), and `float` (recognize_float:
optional sign, `digits ['.' digits?]` or `'.' digits`, optional exponent
with mandatory digits). The `inf`/`nan` special forms of some nom versions
are not modelled; no claim exercises them.
-/

deriving instance DecidableEq for Except

attribute [local semireducible] Rat.mul Rat.add Rat.sub Rat.inv

/-- Parser model: input characters to `none` (no alternative matched) or
`some (remaining input, parsed value)`. -/
abbrev P (α : Type) := List Char → Option (List Char × α)

def pPure {α : Type} (a : α) : P α := fun i => some (i, a)

def pBind {α β : Type} (p : P α) (f : α → P β) : P β := fun i =>
  match p i with
  | none => none
  | some (r, a) => f a r

def pMap {α β : Type} (p : P α) (f : α → β) : P β :=
  pBind p (fun a => pPure (f a))

/-- nom `alt` of two parsers: first success wins. -/
def altP {α : Type} (p q : P α) : P α := fun i =>
  match p i with
  | none => q i
  | some r => some r

/-- nom `opt`: never fails, `none` value when the inner parser fails. -/
def optP {α : Type} (p : P α) : P (Option α) := fun i =>
  match p i with
  | none => some (i, none)
  | some (r, a) => some (r, some a)

def failP {α : Type} : P α := fun _ => none

/-- nom `tag`: match `t` literally at the head of the input. -/
def tagP : List Char → P (List Char)
  | [], i => some (i, [])
  | _ :: _, [] => none
  | c :: t, d :: i =>
    if c = d then
      match tagP t i with
      | none => none
      | some (r, m) => some (r, c :: m)
    else none

/-- nom `char`: match one exact character. -/
def charP (c : Char) : P Char := fun i =>
  match i with
  | [] => none
  | d :: t => if d = c then some (t, c) else none

/-- nom `satisfy`: match one character passing the test. -/
def satisfyP (f : Char → Bool) : P Char := fun i =>
  match i with
  | [] => none
  | c :: t => if f c then some (t, c) else none

/-- One-or-more characters satisfying `f` (nom `alpha1`/`space1` shape). -/
def takeWhile1P (f : Char → Bool) : P (List Char) := fun i =>
  match i.takeWhile f with
  | [] => none
  | c :: t => some (i.dropWhile f, c :: t)

/-- Zero-or-more characters satisfying `f` (nom `space0` shape). -/
def takeWhile0P (f : Char → Bool) : P (List Char) := fun i =>
  some (i.dropWhile f, i.takeWhile f)

/-- ASCII alphabetic, the class used by nom's `alpha1` on `&str`. -/
def isAlphaC (c : Char) : Bool :=
  (65 ≤ c.toNat && c.toNat ≤ 90) || (97 ≤ c.toNat && c.toNat ≤ 122)

/-- ASCII digit. -/
def isDigitC (c : Char) : Bool := 48 ≤ c.toNat && c.toNat ≤ 57

/-- nom's space class for `space0`/`space1`: space and tab. -/
def isSpaceC (c : Char) : Bool := c.toNat = 32 || c.toNat = 9

def alpha1 : P (List Char) := takeWhile1P isAlphaC

def space1 : P (List Char) := takeWhile1P isSpaceC

def space0 : P (List Char) := takeWhile0P isSpaceC

/-- nom `not_line_ending`: consume up to (excluding) `"\r\n"` or `'\n'`,
or the whole input; a `'\r'` not followed by `'\n'` is an error. -/
def notLineEnding : P (List Char)
  | [] => some ([], [])
  | c :: t =>
    if c = '\n' then some (c :: t, [])
    else if c = '\r' then
      match t with
      | d :: _ => if d = '\n' then some (c :: t, []) else none
      | [] => none
    else
      match notLineEnding t with
      | none => none
      | some (r, cs) => some (r, c :: cs)

/-- Numeric value of a digit string, `"155"` ↦ `155`. -/
def decVal (ds : List Char) : Nat :=
  ds.foldl (fun n c => 10 * n + (c.toNat - 48)) 0

/-- The optional exponent tail of nom's `recognize_float` (`e|E`, optional
sign, then digits, which are mandatory once the `e` was seen — nom's
`cut`, i.e. a missing exponent fails the whole float), applied to the
already-recognized mantissa value `v` with overall sign `sgn`. -/
def expDigits (sgn v : Rat) (esign : Bool) (i : List Char) : Option (List Char × Rat) :=
  match i.takeWhile isDigitC with
  | [] => none
  | _ :: _ =>
    some (i.dropWhile isDigitC,
      sgn * (if esign then v * ((10 ^ decVal (i.takeWhile isDigitC) : Nat) : Rat)
             else v / ((10 ^ decVal (i.takeWhile isDigitC) : Nat) : Rat)))

def expP (sgn v : Rat) : List Char → Option (List Char × Rat)
  | [] => some ([], sgn * v)
  | c :: t =>
    if c = 'e' ∨ c = 'E' then
      match t with
      | [] => expDigits sgn v true []
      | d :: u =>
        if d = '+' then expDigits sgn v true u
        else if d = '-' then expDigits sgn v false u
        else expDigits sgn v true (d :: u)
    else some (c :: t, sgn * v)

/-- After the integer digits of `recognize_float`: the optional
`'.' digit*` fractional part, then the optional exponent. `v` is the value
of the integer digits. -/
def floatFrac (sgn v : Rat) : List Char → Option (List Char × Rat)
  | [] => expP sgn v []
  | c :: u =>
    if c = '.' then
      expP sgn
        (v + (decVal (u.takeWhile isDigitC) : Rat) / ((10 ^ (u.takeWhile isDigitC).length : Nat) : Rat))
        (u.dropWhile isDigitC)
    else expP sgn v (c :: u)

/-- Mantissa of `recognize_float`: `digit+ ('.' digit*)?` or `'.' digit+`,
followed by the optional exponent. -/
def floatMant (sgn : Rat) : List Char → Option (List Char × Rat)
  | [] => none
  | c :: t =>
    if isDigitC c then
      floatFrac sgn (decVal ((c :: t).takeWhile isDigitC) : Rat) ((c :: t).dropWhile isDigitC)
    else if c = '.' then
      match t.takeWhile isDigitC with
      | [] => none
      | _ :: _ =>
        expP sgn ((decVal (t.takeWhile isDigitC) : Rat) / ((10 ^ (t.takeWhile isDigitC).length : Nat) : Rat))
          (t.dropWhile isDigitC)
    else none

/-- nom `number::complete::float` (recognize_float), with the value computed
exactly as a rational: optional sign, then the mantissa and optional
exponent of `floatMant`/`expP`. -/
def floatP : P Rat
  | [] => none
  | c :: t =>
    if c = '+' then floatMant 1 t
    else if c = '-' then floatMant (-1) t
    else floatMant 1 (c :: t)

/-! ## Data model (`Amount`, `Ingredient`) -/

/-- `struct Amount { unit, value, upper_value }` from `src/lib.rs`. -/
structure Amount where
  unit : String
  value : Rat
  upper_value : Option Rat
deriving DecidableEq, Repr

/-- `struct Ingredient { name, amounts, modifier }` from `src/lib.rs`. -/
structure Ingredient where
  name : String
  amounts : List Amount
  modifier : Option String
deriving DecidableEq, Repr

/-! ## The grammar, function by function from `src/lib.rs` -/

/-- `fn text`: `alt((alpha1, space1, tag("-")))`. -/
def text : P (List Char) := altP alpha1 (altP space1 (tagP ['-']))

/-- `fn v_frac_to_num`: table of known vulgar-fraction glyphs (exact
rationals; the source computes the same quotients in `f32`), `Err` on any
other character. -/
def v_frac_to_num (c : Char) : Except String Rat :=
  if c = '¾' then .ok (3 / 4)
  else if c = '⅛' then .ok (1 / 8)
  else if c = '¼' then .ok (1 / 4)
  else if c = '⅓' then .ok (1 / 3)
  else if c = '½' then .ok (1 / 2)
  else .error ("unkown fraction: " ++ String.mk [c])

/-- `fn is_frac_char`: the two unicode vulgar-fraction ranges
`'¼'..='¾'` (U+00BC–U+00BE) and `'⅐'..='⅞'` (U+2150–U+215E). -/
def is_frac_char (c : Char) : Bool :=
  (0xBC ≤ c.toNat && c.toNat ≤ 0xBE) || (0x2150 ≤ c.toNat && c.toNat ≤ 0x215E)

/-- Value of a recognized vulgar-fraction character: table value for the
known glyphs, `0.0` for the rest (the `Err` arm of the `match` in
`v_fraction`). -/
def vfracVal (c : Char) : Rat :=
  match v_frac_to_num c with
  | .ok x => x
  | .error _ => 0

/-- `fn v_fraction`: `satisfy(is_frac_char)`, unknown glyphs mapped to 0. -/
def v_fraction : P Rat := pMap (satisfyP is_frac_char) vfracVal

/-- `fn n_fraction`: `tuple((float, tag("/"), float))`, value `a / b`
(exact rational division here; `f32` division in the source, which agrees
whenever the result is representable). -/
def n_fraction : P Rat :=
  pBind floatP fun a =>
  pBind (tagP ['/']) fun _ =>
  pBind floatP fun b =>
  pPure (a / b)

/-- `fn text_number`: `tag("one")` ↦ 1.0. -/
def text_number : P Rat := pMap (tagP ['o', 'n', 'e']) (fun _ => 1)

/-- `fn fraction_number`: `alt` of (optional decimal, then vulgar fraction —
`space0` between) and (optional decimal with a required `space1`, then a
slash fraction), summing the two parts. -/
def fraction_number : P Rat :=
  altP
    (pBind (optP (pBind floatP fun n => pBind space0 fun _ => pPure n)) fun n =>
     pBind v_fraction fun f =>
     pPure ((match n with | some x => x | none => 0) + f))
    (pBind (optP (pBind floatP fun n => pBind space1 fun _ => pPure n)) fun n =>
     pBind n_fraction fun f =>
     pPure ((match n with | some x => x | none => 0) + f))

/-- `fn num`: `alt((fraction_number, text_number, float))`. -/
def num : P Rat := altP fraction_number (altP text_number floatP)

/-- `fn num_or_range`: a numeral, optionally followed by
`space0 '-' space0` and a second numeral (the upper bound). -/
def num_or_range : P (Rat × Option Rat) :=
  pBind num fun v =>
  pBind (optP (pBind space0 fun _ => pBind (tagP ['-']) fun _ =>
               pBind space0 fun _ => pBind num fun u => pPure u)) fun up =>
  pPure (v, up)

/-- `fn amount1`: `opt(tag("about "))`, a value-or-range, `space0`, and an
`alpha1` unit; produces a one-element amount list. -/
def amount1 : P (List Amount) :=
  pBind (optP (tagP "about ".data)) fun _ =>
  pBind num_or_range fun value =>
  pBind space0 fun _ =>
  pBind alpha1 fun unit =>
  pPure [⟨String.mk unit, value.1, value.2⟩]

/-- The separator alternatives of `fn amount2`, in source order:
`"; "`, `" / "`, `" "`, `", "`, `"/"`. -/
def sepAlt : P (List Char) :=
  altP (tagP "; ".data)
    (altP (tagP " / ".data)
      (altP (tagP " ".data)
        (altP (tagP ", ".data) (tagP "/".data))))

/-- `fn amount2` with its parenthesized-group argument abstracted (the
source's `alt((amt_parens, amount1))` second component is recursive through
`parse_n_amount`): `separated_pair(amount1, sep, alt((paren, amount1)))`,
concatenating the two lists. -/
def amount2With (paren : P (List Amount)) : P (List Amount) :=
  pBind amount1 fun a =>
  pBind sepAlt fun _ =>
  pBind (altP paren amount1) fun b =>
  pPure (a ++ b)

/-- `fn amt_parens` unrolled on a recursion-depth fuel: `'('` then the
one-or-two-amount grammar then `')'`. Each level consumes the `'('` before
recursing, so nesting depth is bounded by the input length and a fuel of
`length + 1` reproduces the source's unbounded recursion. -/
def amt_parensF : Nat → P (List Amount)
  | 0 => failP
  | n + 1 =>
    pBind (charP '(') fun _ =>
    pBind (altP (amount2With (amt_parensF n)) amount1) fun a =>
    pBind (charP ')') fun _ =>
    pPure a

/-- `fn parse_n_amount`: `alt((amount2, amount1))`. -/
def parse_n_amount : P (List Amount) := fun i =>
  altP (amount2With (amt_parensF i.length)) amount1 i

/-- `fn amt_parens` at adequate fuel. -/
def amt_parens : P (List Amount) := fun i => amt_parensF (i.length + 1) i

/-- The `tuple(...)` inside `fn parse_ingredient`, before the closure that
builds the `Ingredient`: optional amounts, `space0`, optional name chunks
(`many1(text)`), optional parenthesized amounts, optional `", "`, and the
`not_line_ending` modifier text. -/
structure RawParts where
  amts1 : Option (List Amount)
  chunks : Option (List (List Char))
  amts2 : Option (List Amount)
  commaSep : Option (List Char)
  modText : List Char
deriving DecidableEq, Repr

/-- nom `many1` with the zero-length-match loop protection, on fuel
(sufficient at `input.length` since every step must consume). -/
def many0Fuel {α : Type} (p : P α) : Nat → P (List α)
  | 0, i => some (i, [])
  | n + 1, i =>
    match p i with
    | none => some (i, [])
    | some (r, a) =>
      if r.length < i.length then
        match many0Fuel p n r with
        | none => none
        | some (r', as) => some (r', a :: as)
      else none

def many1P {α : Type} (p : P α) : P (List α) := fun i =>
  match p i with
  | none => none
  | some (r, a) =>
    if r.length < i.length then
      match many0Fuel p i.length r with
      | none => none
      | some (r', as) => some (r', a :: as)
    else none

/-- The raw tuple parse of `fn parse_ingredient`. -/
def rawParse : P RawParts :=
  pBind (optP parse_n_amount) fun amts1 =>
  pBind space0 fun _ =>
  pBind (optP (many1P text)) fun chunks =>
  pBind (optP amt_parens) fun amts2 =>
  pBind (optP (tagP ", ".data)) fun commaSep =>
  pBind notLineEnding fun modText =>
  pPure ⟨amts1, chunks, amts2, commaSep, modText⟩

/-- Rust `str::trim_matches(' ')`: strip leading and trailing spaces
(spaces only, not tabs). -/
def trimSpaces (l : List Char) : List Char :=
  ((l.dropWhile (fun c => c = ' ')).reverse.dropWhile (fun c => c = ' ')).reverse

/-- The name computed by `parse_ingredient` from the raw chunks:
`n.join("").trim_matches(' ')`, or `""` when absent. -/
def rawName (t : RawParts) : String :=
  String.mk (trimSpaces (match t.chunks with | some cs => cs.flatten | none => []))

/-- The combined amount list before normalization: leading amounts (or
empty) chained with the parenthetical amounts when present. -/
def rawAmounts (t : RawParts) : List Amount :=
  (match t.amts1 with | some a => a | none => []) ++
  (match t.amts2 with | some a => a | none => [])

/-- The modifier: `None` when the captured text has zero characters. -/
def rawModifier (t : RawParts) : Option String :=
  match t.modText with
  | [] => none
  | cs => some (String.mk cs)

/-- The closure body of `fn parse_ingredient`, including the `1 egg`
normalization: when the name is empty and exactly one amount was parsed,
the unit becomes the name and the unit is rewritten to `"whole"`. -/
def normalizeIng (t : RawParts) : Ingredient :=
  match rawAmounts t, rawName t with
  | [a], ⟨[]⟩ => ⟨a.unit, [{ a with unit := "whole" }], rawModifier t⟩
  | amts, n => ⟨n, amts, rawModifier t⟩

/-- `fn parse_ingredient`. -/
def parse_ingredient : P Ingredient := fun i =>
  match rawParse i with
  | none => none
  | some (r, t) => some (r, normalizeIng t)

/-- `fn from_str`: `Ok` of the parsed ingredient, or the
`format!("failed to parse '{}': {}", input, msg)` error. The rendering of
the nom `VerboseError` (either `convert_error` or its `Display`, selected
by `verbose_error`) is abstracted to the empty suffix: no claim depends on
its content, only on the wrapper that embeds the input. -/
def from_str (input : String) (verbose_error : Bool) : Except String Ingredient :=
  match parse_ingredient input.data with
  | some (_, r) => .ok r
  | none => .error ("failed to parse '" ++ input ++ "': ")

/-- `fn parse_amount`: wrapper over `parse_n_amount` with the same error
format. -/
def parse_amount (input : String) : Except String (List Amount) :=
  match parse_n_amount input.data with
  | some (_, r) => .ok r
  | none => .error ("failed to parse '" ++ input ++ "': ")

/-! ## Formatters (`impl fmt::Display`) -/

/-- Decimal rendering of a rational, modelling Rust's `f32` `Display` on
the values the parser produces: integers print without a point, finite
decimal expansions print exactly; (for completeness) a value with an
infinite expansion falls back to `num/den`, a case no claim exercises. -/
def ratToString (q : Rat) : String :=
  if q.den = 1 then toString q.num
  else
    match (List.range 64).find? (fun k => 10 ^ k % q.den = 0) with
    | some k =>
      let scaled := q.num.natAbs * 10 ^ k / q.den
      let ip := scaled / 10 ^ k
      let fp := scaled % 10 ^ k
      let fpStr := toString fp
      let fpPad := String.mk (List.replicate (k - fpStr.length) '0') ++ fpStr
      (if q.num < 0 then "-" else "") ++ toString ip ++ "." ++ fpPad
    | none => toString q.num ++ "/" ++ toString q.den

/-- `impl fmt::Display for Amount` (non-colored path):
`write!(f, "{} {}", self.value, self.unit)`. -/
def fmtAmount (a : Amount) : String :=
  ratToString a.value ++ " " ++ a.unit

/-- `impl fmt::Display for Ingredient` (non-colored path): the joined
amounts (`"n/a"` when the list is empty, otherwise joined with `" / "` and
a trailing space), the name, then `", {modifier}"` when present. -/
def fmtIngredient (ing : Ingredient) : String :=
  let amounts := ing.amounts.map fmtAmount
  let modifier := match ing.modifier with
    | some m => ", " ++ m
    | none => ""
  let amount_list := match amounts.length with
    | 0 => "n/a"
    | _ + 1 => String.intercalate " / " amounts ++ " "
  amount_list ++ ing.name ++ modifier

/-! ## Helper lemmas: character classes and primitive parsers -/

set_option maxRecDepth 8192

/-- The head of `r`, if any, fails the test `f`. -/
def headNot (f : Char → Bool) : List Char → Prop
  | [] => True
  | c :: _ => f c = false

theorem ne_of_class {f : Char → Bool} {c d : Char} (h : f c = true) (hd : f d = false) :
    c ≠ d := by
  intro e
  rw [e, hd] at h
  exact Bool.noConfusion h

theorem isDigitC_bounds {c : Char} (h : isDigitC c = true) : 48 ≤ c.toNat ∧ c.toNat ≤ 57 := by
  simpa [isDigitC] using h

theorem isAlphaC_bounds {c : Char} (h : isAlphaC c = true) :
    (65 ≤ c.toNat ∧ c.toNat ≤ 90) ∨ (97 ≤ c.toNat ∧ c.toNat ≤ 122) := by
  simpa [isAlphaC] using h

theorem isSpaceC_vals {c : Char} (h : isSpaceC c = true) : c.toNat = 32 ∨ c.toNat = 9 := by
  simpa [isSpaceC] using h

theorem alpha_not_digit {c : Char} (h : isAlphaC c = true) : isDigitC c = false := by
  have := isAlphaC_bounds h
  simp [isDigitC]
  omega

theorem alpha_not_space {c : Char} (h : isAlphaC c = true) : isSpaceC c = false := by
  have := isAlphaC_bounds h
  simp [isSpaceC]
  omega

theorem alpha_not_frac {c : Char} (h : isAlphaC c = true) : is_frac_char c = false := by
  have := isAlphaC_bounds h
  simp [is_frac_char]
  omega

theorem digit_not_alpha {c : Char} (h : isDigitC c = true) : isAlphaC c = false := by
  have := isDigitC_bounds h
  simp [isAlphaC]
  omega

theorem digit_not_space {c : Char} (h : isDigitC c = true) : isSpaceC c = false := by
  have := isDigitC_bounds h
  simp [isSpaceC]
  omega

theorem digit_not_frac {c : Char} (h : isDigitC c = true) : is_frac_char c = false := by
  have := isDigitC_bounds h
  simp [is_frac_char]
  omega

theorem space_not_digit {c : Char} (h : isSpaceC c = true) : isDigitC c = false := by
  have := isSpaceC_vals h
  simp [isDigitC]
  omega

/-- A character whose class test holds differs from any character whose
codepoint lies outside the class: used to compare against literals. -/
theorem digit_toNat_ne {c : Char} (h : isDigitC c = true) {n : Nat}
    (hn : n < 48 ∨ 57 < n) : c.toNat ≠ n := by
  have := isDigitC_bounds h
  omega

theorem alpha_toNat_ne {c : Char} (h : isAlphaC c = true) {n : Nat}
    (hn : (n < 65 ∨ 90 < n) ∧ (n < 97 ∨ 122 < n)) : c.toNat ≠ n := by
  have := isAlphaC_bounds h
  omega

theorem char_ne_of_toNat_ne {c d : Char} (h : c.toNat ≠ d.toNat) : c ≠ d :=
  fun e => h (congrArg Char.toNat e)

theorem takeWhile_append_all {f : Char → Bool} {xs r : List Char}
    (h : ∀ c ∈ xs, f c = true) (h2 : headNot f r) : (xs ++ r).takeWhile f = xs := by
  rw [List.takeWhile_append_of_pos h]
  cases r with
  | nil => simp
  | cons c t =>
    simp only [headNot] at h2
    simp [List.takeWhile_cons, h2]

theorem dropWhile_append_all {f : Char → Bool} {xs r : List Char}
    (h : ∀ c ∈ xs, f c = true) (h2 : headNot f r) : (xs ++ r).dropWhile f = r := by
  rw [List.dropWhile_append_of_pos h]
  cases r with
  | nil => simp
  | cons c t =>
    simp only [headNot] at h2
    simp [List.dropWhile_cons, h2]

theorem tagP_self_append (t r : List Char) : tagP t (t ++ r) = some (r, t) := by
  induction t with
  | nil => rfl
  | cons c t ih => simp [tagP, ih]

theorem tagP_cons_ne {c d : Char} (t i : List Char) (h : c ≠ d) :
    tagP (c :: t) (d :: i) = none := by
  simp [tagP, h]

theorem tagP_some {t i r m : List Char} (h : tagP t i = some (r, m)) :
    m = t ∧ i = t ++ r := by
  induction t generalizing i r m with
  | nil =>
    simp only [tagP, Option.some.injEq, Prod.mk.injEq] at h
    simp [← h.1, ← h.2]
  | cons c t ih =>
    cases i with
    | nil => exact absurd h (by simp [tagP])
    | cons d i =>
      by_cases hc : c = d
      · subst hc
        rw [show tagP (c :: t) (c :: i) =
              (match tagP t i with
               | none => none
               | some (r, m) => some (r, c :: m)) from by simp [tagP]] at h
        cases htag : tagP t i with
        | none => rw [htag] at h; exact Option.noConfusion h
        | some v =>
          obtain ⟨r', m'⟩ := v
          rw [htag] at h
          simp only [Option.some.injEq, Prod.mk.injEq] at h
          obtain ⟨hr', hm'⟩ := h
          obtain ⟨hm, hi⟩ := ih htag
          constructor
          · rw [← hm', hm]
          · rw [hi, hr']
            simp
      · rw [tagP_cons_ne _ _ hc] at h
        exact Option.noConfusion h

theorem space0_eval {ws r : List Char} (hws : ∀ c ∈ ws, isSpaceC c = true)
    (hr : headNot isSpaceC r) : space0 (ws ++ r) = some (r, ws) := by
  simp [space0, takeWhile0P, takeWhile_append_all hws hr, dropWhile_append_all hws hr]

theorem space0_any (i : List Char) :
    space0 i = some (i.dropWhile isSpaceC, i.takeWhile isSpaceC) := rfl

theorem space1_eval {ws r : List Char} (hne : ws ≠ []) (hws : ∀ c ∈ ws, isSpaceC c = true)
    (hr : headNot isSpaceC r) : space1 (ws ++ r) = some (r, ws) := by
  cases ws with
  | nil => exact absurd rfl hne
  | cons w ws =>
    have h1 := takeWhile_append_all hws hr
    have h2 := dropWhile_append_all hws hr
    rw [List.cons_append] at h1 h2
    simp [space1, takeWhile1P, h1, h2]

theorem space1_none {i : List Char} (h : headNot isSpaceC i) : space1 i = none := by
  cases i with
  | nil => rfl
  | cons c t =>
    simp only [headNot] at h
    simp [space1, takeWhile1P, List.takeWhile_cons, h]

theorem alpha1_eval {u r : List Char} (hne : u ≠ []) (hu : ∀ c ∈ u, isAlphaC c = true)
    (hr : headNot isAlphaC r) : alpha1 (u ++ r) = some (r, u) := by
  cases u with
  | nil => exact absurd rfl hne
  | cons c t =>
    have h1 := takeWhile_append_all hu hr
    have h2 := dropWhile_append_all hu hr
    rw [List.cons_append] at h1 h2
    simp [alpha1, takeWhile1P, h1, h2]

/-! ## Helper lemmas: `floatP` on digit strings -/

/-- The rest `r` cannot extend a just-recognized digit run of a float:
its head is not a digit and not `'.'`, `'e'`, `'E'`. -/
def floatStop : List Char → Prop
  | [] => True
  | c :: _ => isDigitC c = false ∧ c ≠ '.' ∧ c ≠ 'e' ∧ c ≠ 'E'

theorem floatStop_headNot {r : List Char} (h : floatStop r) : headNot isDigitC r := by
  cases r with
  | nil => trivial
  | cons c t => exact h.1

theorem expP_nil (sgn v : Rat) : expP sgn v [] = some ([], sgn * v) := rfl

theorem expP_cons {c : Char} (t : List Char) (sgn v : Rat) (h1 : c ≠ 'e') (h2 : c ≠ 'E') :
    expP sgn v (c :: t) = some (c :: t, sgn * v) := by
  simp [expP, h1, h2]

theorem floatMant_digits {sgn : Rat} {ds r : List Char} (h0 : ds ≠ [])
    (h1 : ∀ c ∈ ds, isDigitC c = true) (h2 : floatStop r) :
    floatMant sgn (ds ++ r) = some (r, sgn * (decVal ds : Rat)) := by
  cases ds with
  | nil => exact absurd rfl h0
  | cons d dt =>
    have hd : isDigitC d = true := h1 d (by simp)
    have htw := takeWhile_append_all h1 (floatStop_headNot h2)
    have hdw := dropWhile_append_all h1 (floatStop_headNot h2)
    rw [List.cons_append] at htw hdw
    rw [List.cons_append]
    simp only [floatMant, hd, if_pos, htw, hdw]
    cases r with
    | nil => rfl
    | cons c2 u =>
      obtain ⟨hc2d, hc2dot, hc2e, hc2E⟩ := h2
      simp only [floatFrac, if_neg hc2dot, expP_cons _ _ _ hc2e hc2E]

theorem floatP_digits {ds r : List Char} (h0 : ds ≠ [])
    (h1 : ∀ c ∈ ds, isDigitC c = true) (h2 : floatStop r) :
    floatP (ds ++ r) = some (r, (decVal ds : Rat)) := by
  cases ds with
  | nil => exact absurd rfl h0
  | cons d dt =>
    have hd : isDigitC d = true := h1 d (by simp)
    have hplus : d ≠ '+' := ne_of_class hd (by decide)
    have hminus : d ≠ '-' := ne_of_class hd (by decide)
    rw [List.cons_append]
    rw [show floatP (d :: (dt ++ r)) = floatMant 1 (d :: (dt ++ r)) from by
      simp [floatP, hplus, hminus]]
    rw [← List.cons_append]
    rw [floatMant_digits h0 h1 h2, one_mul]

theorem floatP_neg_digits {ds r : List Char} (h0 : ds ≠ [])
    (h1 : ∀ c ∈ ds, isDigitC c = true) (h2 : floatStop r) :
    floatP ('-' :: (ds ++ r)) = some (r, -(decVal ds : Rat)) := by
  rw [show floatP ('-' :: (ds ++ r)) = floatMant (-1) (ds ++ r) from by simp [floatP]]
  rw [floatMant_digits h0 h1 h2, neg_one_mul]

theorem floatP_none {c : Char} (t : List Char) (h1 : isDigitC c = false) (h2 : c ≠ '.')
    (h3 : c ≠ '+') (h4 : c ≠ '-') : floatP (c :: t) = none := by
  simp [floatP, h3, h4, floatMant, h1, h2]

theorem floatP_nil : floatP [] = none := rfl

theorem floatP_neg_none {c : Char} (t : List Char) (h1 : isDigitC c = false) (h2 : c ≠ '.') :
    floatP ('-' :: c :: t) = none := by
  simp [floatP, floatMant, h1, h2]

/-! ## Helper lemmas: `v_fraction`, `n_fraction`, `text_number`, `num` -/

theorem v_fraction_cons_true {c : Char} (r : List Char) (h : is_frac_char c = true) :
    v_fraction (c :: r) = some (r, vfracVal c) := by
  simp [v_fraction, pMap, pBind, pPure, satisfyP, h]

theorem v_fraction_cons_false {c : Char} (r : List Char) (h : is_frac_char c = false) :
    v_fraction (c :: r) = none := by
  simp [v_fraction, pMap, pBind, pPure, satisfyP, h]

theorem n_fraction_none_float {i : List Char} (h : floatP i = none) : n_fraction i = none := by
  simp [n_fraction, pBind, h]

theorem n_fraction_none_slash {i r : List Char} {v : Rat} (hf : floatP i = some (r, v))
    (hr : tagP ['/'] r = none) : n_fraction i = none := by
  simp [n_fraction, pBind, hf, hr]

theorem text_number_none {c : Char} (t : List Char) (h : c ≠ 'o') :
    text_number (c :: t) = none := by
  have : tagP "one".data (c :: t) = none := tagP_cons_ne _ _ (Ne.symm h)
  simp [text_number, pMap, pBind, this]

theorem space1_empty {i : List Char} (h : i.takeWhile isSpaceC = []) : space1 i = none := by
  simp [space1, takeWhile1P, h]

theorem space1_some {i : List Char} {w : Char} {ws : List Char}
    (h : i.takeWhile isSpaceC = w :: ws) :
    space1 i = some (i.dropWhile isSpaceC, w :: ws) := by
  simp [space1, takeWhile1P, h]

theorem n_fraction_digits {B C r : List Char} (hB0 : B ≠ []) (hB : ∀ c ∈ B, isDigitC c = true)
    (hC0 : C ≠ []) (hC : ∀ c ∈ C, isDigitC c = true) (hr : floatStop r) :
    n_fraction (B ++ '/' :: (C ++ r)) = some (r, (decVal B : Rat) / (decVal C : Rat)) := by
  have hfB : floatP (B ++ '/' :: (C ++ r)) = some ('/' :: (C ++ r), (decVal B : Rat)) :=
    floatP_digits hB0 hB ⟨by decide, by decide, by decide, by decide⟩
  have hfC : floatP (C ++ r) = some (r, (decVal C : Rat)) := floatP_digits hC0 hC hr
  have htag := tagP_self_append ['/'] (C ++ r)
  rw [List.singleton_append] at htag
  simp [n_fraction, pBind, pPure, hfB, htag, hfC]

/-- `fn num` on a digit string followed by text that defeats every
fraction alternative: the plain `float` branch wins. -/
theorem num_digits {ds r : List Char} (h0 : ds ≠ []) (h1 : ∀ c ∈ ds, isDigitC c = true)
    (h2 : floatStop r)
    (hb1 : v_fraction (r.dropWhile isSpaceC) = none)
    (hb2 : r.takeWhile isSpaceC ≠ [] → n_fraction (r.dropWhile isSpaceC) = none)
    (hb3 : r.takeWhile isSpaceC = [] → tagP ['/'] r = none) :
    num (ds ++ r) = some (r, (decVal ds : Rat)) := by
  have hf := floatP_digits h0 h1 h2
  have htn : text_number (ds ++ r) = none := by
    cases ds with
    | nil => exact absurd rfl h0
    | cons d dt =>
      have hd : isDigitC d = true := h1 d (by simp)
      rw [List.cons_append]
      exact text_number_none _ (ne_of_class hd (by decide))
  have hfr : fraction_number (ds ++ r) = none := by
    cases hsp : r.takeWhile isSpaceC with
    | nil =>
      have hs1 : space1 r = none := space1_empty hsp
      have hnf : n_fraction (ds ++ r) = none := n_fraction_none_slash hf (hb3 hsp)
      simp [fraction_number, altP, pBind, optP, pPure, hf, space0_any, hb1, hs1, hnf]
    | cons w ws =>
      have hs1 : space1 r = some (r.dropWhile isSpaceC, w :: ws) := space1_some hsp
      have hnf := hb2 (by rw [hsp]; exact List.cons_ne_nil _ _)
      simp [fraction_number, altP, pBind, optP, pPure, hf, space0_any, hb1, hs1, hnf]
  simp [num, altP, hfr, htn, hf]

/-! ## Helper lemmas: `amount1` on canonical amount strings -/

theorem headNot_of_alpha {U r2 : List Char} (hU0 : U ≠ []) (hU : ∀ c ∈ U, isAlphaC c = true)
    {f : Char → Bool} (hf : ∀ c, isAlphaC c = true → f c = false) :
    headNot f (U ++ r2) := by
  cases U with
  | nil => exact absurd rfl hU0
  | cons u0 U' =>
    rw [List.cons_append]
    exact hf u0 (hU u0 (by simp))

/-- `num` at `N`, with `' ' :: (U ++ r2)` remaining (`U` alphabetic):
every fraction branch fails and the plain float wins. -/
theorem num_digits_unit {N U r2 : List Char} (hN0 : N ≠ []) (hN : ∀ c ∈ N, isDigitC c = true)
    (hU0 : U ≠ []) (hU : ∀ c ∈ U, isAlphaC c = true) :
    num (N ++ ' ' :: (U ++ r2)) = some (' ' :: (U ++ r2), (decVal N : Rat)) := by
  have h5 : headNot isSpaceC (U ++ r2) :=
    headNot_of_alpha hU0 hU (fun c h => alpha_not_space h)
  have htw : (' ' :: (U ++ r2)).takeWhile isSpaceC = [' '] := by
    have := @takeWhile_append_all isSpaceC [' '] (U ++ r2)
      (by intro c hc; simp at hc; subst hc; decide) h5
    rwa [List.singleton_append] at this
  have hdw : (' ' :: (U ++ r2)).dropWhile isSpaceC = U ++ r2 := by
    have := @dropWhile_append_all isSpaceC [' '] (U ++ r2)
      (by intro c hc; simp at hc; subst hc; decide) h5
    rwa [List.singleton_append] at this
  have hvf : v_fraction (U ++ r2) = none := by
    cases U with
    | nil => exact absurd rfl hU0
    | cons u0 U' =>
      rw [List.cons_append]
      exact v_fraction_cons_false _ (alpha_not_frac (hU u0 (by simp)))
  have hflU : floatP (U ++ r2) = none := by
    cases U with
    | nil => exact absurd rfl hU0
    | cons u0 U' =>
      have ha := hU u0 (by simp)
      rw [List.cons_append]
      exact floatP_none _ (alpha_not_digit ha) (ne_of_class ha (by decide))
        (ne_of_class ha (by decide)) (ne_of_class ha (by decide))
  refine num_digits hN0 hN ⟨by decide, by decide, by decide, by decide⟩ ?_ ?_ ?_
  · rw [hdw]; exact hvf
  · intro _; rw [hdw]; exact n_fraction_none_float hflU
  · intro h; rw [htw] at h; exact absurd h (List.cons_ne_nil _ _)

theorem about_none {d : Char} (t : List Char) (hd : isDigitC d = true) :
    tagP "about ".data (d :: t) = none :=
  tagP_cons_ne _ _ (Ne.symm (ne_of_class hd (by decide)))

/-- `fn amount1` on the canonical single amount `N ' ' U` (digits, one
space, alphabetic unit) followed by `r2` that cannot extend the unit. -/
theorem amount1_digits {N U r2 : List Char} (hN0 : N ≠ []) (hN : ∀ c ∈ N, isDigitC c = true)
    (hU0 : U ≠ []) (hU : ∀ c ∈ U, isAlphaC c = true) (hr2 : headNot isAlphaC r2) :
    amount1 (N ++ ' ' :: (U ++ r2)) = some (r2, [⟨String.mk U, (decVal N : Rat), none⟩]) := by
  have h5 : headNot isSpaceC (U ++ r2) :=
    headNot_of_alpha hU0 hU (fun c h => alpha_not_space h)
  have hsp0 : space0 (' ' :: (U ++ r2)) = some (U ++ r2, [' ']) := by
    have := @space0_eval [' '] (U ++ r2)
      (by intro c hc; simp at hc; subst hc; decide) h5
    rwa [List.singleton_append] at this
  have habout : tagP "about ".data (N ++ ' ' :: (U ++ r2)) = none := by
    cases N with
    | nil => exact absurd rfl hN0
    | cons n0 N' =>
      rw [List.cons_append]
      exact about_none _ (hN n0 (by simp))
  have hnum := @num_digits_unit N U r2 hN0 hN hU0 hU
  have hdash : tagP ['-'] (U ++ r2) = none := by
    cases U with
    | nil => exact absurd rfl hU0
    | cons u0 U' =>
      rw [List.cons_append]
      exact tagP_cons_ne _ _ (Ne.symm (ne_of_class (hU u0 (by simp)) (by decide)))
  have hnor : num_or_range (N ++ ' ' :: (U ++ r2)) =
      some (' ' :: (U ++ r2), ((decVal N : Rat), none)) := by
    simp [num_or_range, pBind, optP, pPure, hnum, hsp0, hdash]
  have halpha : alpha1 (U ++ r2) = some (r2, U) := alpha1_eval hU0 hU hr2
  simp [amount1, pBind, optP, pPure, habout, hnor, hsp0, halpha]

/-! ## Helper lemmas: ranges (`amount1` on `a - b unit` shapes) -/

theorem floatStop_space {w : Char} (hw : isSpaceC w = true) (t : List Char) :
    floatStop (w :: t) := by
  have hv := isSpaceC_vals hw
  refine ⟨space_not_digit hw, char_ne_of_toNat_ne ?_, char_ne_of_toNat_ne ?_,
    char_ne_of_toNat_ne ?_⟩
  · show w.toNat ≠ 46
    omega
  · show w.toNat ≠ 101
    omega
  · show w.toNat ≠ 69
    omega


/-- `fn amount1` on the range form `A ws1 - ws2 B ' ' U`: value `A`, upper
bound `B`, unit `U`, arbitrary (possibly empty, possibly asymmetric)
whitespace around the dash. -/
theorem amount1_range {A ws1 ws2 B U : List Char}
    (hA0 : A ≠ []) (hA : ∀ c ∈ A, isDigitC c = true)
    (hws1 : ∀ c ∈ ws1, isSpaceC c = true) (hws2 : ∀ c ∈ ws2, isSpaceC c = true)
    (hB0 : B ≠ []) (hB : ∀ c ∈ B, isDigitC c = true)
    (hU0 : U ≠ []) (hU : ∀ c ∈ U, isAlphaC c = true) :
    amount1 (A ++ (ws1 ++ '-' :: (ws2 ++ (B ++ ' ' :: U)))) =
      some ([], [⟨String.mk U, (decVal A : Rat), some (decVal B : Rat)⟩]) := by
  have hdashNotSpace : headNot isSpaceC ('-' :: (ws2 ++ (B ++ ' ' :: U))) :=
    (by decide : isSpaceC '-' = false)
  have hfsr : floatStop (ws1 ++ '-' :: (ws2 ++ (B ++ ' ' :: U))) := by
    cases ws1 with
    | nil => exact ⟨by decide, by decide, by decide, by decide⟩
    | cons w t =>
      rw [List.cons_append]
      exact floatStop_space (hws1 w (by simp)) _
  have hdw1 : (ws1 ++ '-' :: (ws2 ++ (B ++ ' ' :: U))).dropWhile isSpaceC =
      '-' :: (ws2 ++ (B ++ ' ' :: U)) :=
    dropWhile_append_all hws1 hdashNotSpace
  have htw1 : (ws1 ++ '-' :: (ws2 ++ (B ++ ' ' :: U))).takeWhile isSpaceC = ws1 :=
    takeWhile_append_all hws1 hdashNotSpace
  have hnumB : num (B ++ ' ' :: U) = some (' ' :: U, (decVal B : Rat)) := by
    have := @num_digits_unit B U [] hB0 hB hU0 hU
    rwa [List.append_nil] at this
  have hnfrac : n_fraction ('-' :: (ws2 ++ (B ++ ' ' :: U))) = none := by
    cases ws2 with
    | nil =>
      rw [List.nil_append]
      have hfl : floatP ('-' :: (B ++ ' ' :: U)) = some (' ' :: U, -(decVal B : Rat)) := by
        have h2 : floatStop (' ' :: U) := ⟨by decide, by decide, by decide, by decide⟩
        have := floatP_neg_digits hB0 hB h2
        rwa [show B ++ ' ' :: U = B ++ (' ' :: U) from rfl] at this
      exact n_fraction_none_slash hfl (tagP_cons_ne _ _ (by decide))
    | cons w2 t2 =>
      rw [List.cons_append]
      have hw2 := hws2 w2 (by simp)
      exact n_fraction_none_float (floatP_neg_none _ (space_not_digit hw2)
        (char_ne_of_toNat_ne (by have := isSpaceC_vals hw2; show w2.toNat ≠ 46; omega)))
  have hnumA : num (A ++ (ws1 ++ '-' :: (ws2 ++ (B ++ ' ' :: U)))) =
      some (ws1 ++ '-' :: (ws2 ++ (B ++ ' ' :: U)), (decVal A : Rat)) := by
    refine num_digits hA0 hA hfsr ?_ ?_ ?_
    · rw [hdw1]
      exact v_fraction_cons_false _ (by decide)
    · intro _
      rw [hdw1]
      exact hnfrac
    · intro hnil
      rw [htw1] at hnil
      subst hnil
      rw [List.nil_append]
      exact tagP_cons_ne _ _ (by decide)
  have hsp1 : space0 (ws1 ++ '-' :: (ws2 ++ (B ++ ' ' :: U))) =
      some ('-' :: (ws2 ++ (B ++ ' ' :: U)), ws1) :=
    space0_eval hws1 hdashNotSpace
  have htagdash := tagP_self_append ['-'] (ws2 ++ (B ++ ' ' :: U))
  rw [List.singleton_append] at htagdash
  have hBhead : headNot isSpaceC (B ++ ' ' :: U) := by
    cases B with
    | nil => exact absurd rfl hB0
    | cons b0 B' =>
      rw [List.cons_append]
      exact digit_not_space (hB b0 (by simp))
  have hsp2 : space0 (ws2 ++ (B ++ ' ' :: U)) = some (B ++ ' ' :: U, ws2) :=
    space0_eval hws2 hBhead
  have hnor : num_or_range (A ++ (ws1 ++ '-' :: (ws2 ++ (B ++ ' ' :: U)))) =
      some (' ' :: U, ((decVal A : Rat), some (decVal B : Rat))) := by
    simp [num_or_range, pBind, optP, pPure, hnumA, hsp1, htagdash, hsp2, hnumB]
  have habout : tagP "about ".data (A ++ (ws1 ++ '-' :: (ws2 ++ (B ++ ' ' :: U)))) = none := by
    cases A with
    | nil => exact absurd rfl hA0
    | cons a0 A' =>
      rw [List.cons_append]
      exact about_none _ (hA a0 (by simp))
  have hUhead : headNot isSpaceC U := by
    cases U with
    | nil => trivial
    | cons u0 U' => exact alpha_not_space (hU u0 (by simp))
  have hspU : space0 (' ' :: U) = some (U, [' ']) := by
    have := @space0_eval [' '] U
      (by intro c hc; simp at hc; subst hc; decide) hUhead
    rwa [List.singleton_append] at this
  have halpha : alpha1 U = some ([], U) := by
    have := @alpha1_eval U [] hU0 hU (by trivial)
    rwa [List.append_nil] at this
  simp [amount1, pBind, optP, pPure, habout, hnor, hspU, halpha]

/-! ## Helper lemmas: mixed numbers (`num` on `a b/c`) -/

/-- `fn num` on the mixed form `A W B/C` (digits, whitespace, slash
fraction): the slash-fraction branch of `fraction_number` wins, before the
bare-decimal fallback, and the value is `A + B/C`. -/
theorem num_mixed {A W B C : List Char}
    (hA0 : A ≠ []) (hA : ∀ c ∈ A, isDigitC c = true)
    (hW0 : W ≠ []) (hW : ∀ c ∈ W, isSpaceC c = true)
    (hB0 : B ≠ []) (hB : ∀ c ∈ B, isDigitC c = true)
    (hC0 : C ≠ []) (hC : ∀ c ∈ C, isDigitC c = true) :
    num (A ++ (W ++ (B ++ '/' :: C))) =
      some ([], (decVal A : Rat) + (decVal B : Rat) / (decVal C : Rat)) := by
  have hBhead : headNot isSpaceC (B ++ '/' :: C) := by
    cases B with
    | nil => exact absurd rfl hB0
    | cons b0 B' =>
      rw [List.cons_append]
      exact digit_not_space (hB b0 (by simp))
  have hfsr : floatStop (W ++ (B ++ '/' :: C)) := by
    cases W with
    | nil => exact absurd rfl hW0
    | cons w t =>
      rw [List.cons_append]
      exact floatStop_space (hW w (by simp)) _
  have hf : floatP (A ++ (W ++ (B ++ '/' :: C))) =
      some (W ++ (B ++ '/' :: C), (decVal A : Rat)) := floatP_digits hA0 hA hfsr
  have hsp0 : space0 (W ++ (B ++ '/' :: C)) = some (B ++ '/' :: C, W) :=
    space0_eval hW hBhead
  have hsp1 : space1 (W ++ (B ++ '/' :: C)) = some (B ++ '/' :: C, W) :=
    space1_eval hW0 hW hBhead
  have hvf : v_fraction (B ++ '/' :: C) = none := by
    cases B with
    | nil => exact absurd rfl hB0
    | cons b0 B' =>
      rw [List.cons_append]
      exact v_fraction_cons_false _ (digit_not_frac (hB b0 (by simp)))
  have hnf : n_fraction (B ++ '/' :: C) =
      some ([], (decVal B : Rat) / (decVal C : Rat)) := by
    have := @n_fraction_digits B C [] hB0 hB hC0 hC trivial
    rwa [List.append_nil] at this
  simp [num, fraction_number, altP, pBind, optP, pPure, hf, hsp0, hsp1, hvf, hnf]

/-! ## Helper lemmas: separators and parenthesized groups -/

/-- Evaluation of the five separator alternatives of `fn amount2`, each
followed by a digit (the start of the second amount), in the source's
priority order `"; "`, `" / "`, `" "`, `", "`, `"/"`. -/
theorem sepAlt_cases {x : Char} (X' : List Char) (hx : isDigitC x = true) :
    sepAlt ([';', ' '] ++ x :: X') = some (x :: X', [';', ' ']) ∧
    sepAlt ([' ', '/', ' '] ++ x :: X') = some (x :: X', [' ', '/', ' ']) ∧
    sepAlt ([' '] ++ x :: X') = some (x :: X', [' ']) ∧
    sepAlt ([',', ' '] ++ x :: X') = some (x :: X', [',', ' ']) ∧
    sepAlt (['/'] ++ x :: X') = some (x :: X', ['/']) := by
  have e1 : "; ".data = [';', ' '] := rfl
  have e2 : " / ".data = [' ', '/', ' '] := rfl
  have e3 : " ".data = [' '] := rfl
  have e4 : ", ".data = [',', ' '] := rfl
  have e5 : "/".data = ['/'] := rfl
  have hxslash : ('/' : Char) ≠ x := Ne.symm (ne_of_class hx (by decide))
  refine ⟨?_, ?_, ?_, ?_, ?_⟩
  · have hs : tagP [';', ' '] (';' :: ' ' :: x :: X') = some (x :: X', [';', ' ']) := by
      simpa using tagP_self_append [';', ' '] (x :: X')
    simp [sepAlt, altP, e1, e2, e3, e4, e5, hs]
  · have h1 : tagP [';', ' '] (' ' :: '/' :: ' ' :: x :: X') = none :=
      tagP_cons_ne _ _ (by decide)
    have hs : tagP [' ', '/', ' '] (' ' :: '/' :: ' ' :: x :: X') =
        some (x :: X', [' ', '/', ' ']) := by
      simpa using tagP_self_append [' ', '/', ' '] (x :: X')
    simp [sepAlt, altP, e1, e2, e3, e4, e5, h1, hs]
  · have h1 : tagP [';', ' '] (' ' :: x :: X') = none := tagP_cons_ne _ _ (by decide)
    have h2 : tagP [' ', '/', ' '] (' ' :: x :: X') = none := by
      have h3 : tagP ['/', ' '] (x :: X') = none := tagP_cons_ne _ _ hxslash
      simp [tagP, h3, hxslash]
    have hs : tagP [' '] (' ' :: x :: X') = some (x :: X', [' ']) := by
      simpa using tagP_self_append [' '] (x :: X')
    simp [sepAlt, altP, e1, e2, e3, e4, e5, h1, h2, hs]
  · have h1 : tagP [';', ' '] (',' :: ' ' :: x :: X') = none := tagP_cons_ne _ _ (by decide)
    have h2 : tagP [' ', '/', ' '] (',' :: ' ' :: x :: X') = none :=
      tagP_cons_ne _ _ (by decide)
    have h3 : tagP [' '] (',' :: ' ' :: x :: X') = none := tagP_cons_ne _ _ (by decide)
    have hs : tagP [',', ' '] (',' :: ' ' :: x :: X') = some (x :: X', [',', ' ']) := by
      simpa using tagP_self_append [',', ' '] (x :: X')
    simp [sepAlt, altP, e1, e2, e3, e4, e5, h1, h2, h3, hs]
  · have h1 : tagP [';', ' '] ('/' :: x :: X') = none := tagP_cons_ne _ _ (by decide)
    have h2 : tagP [' ', '/', ' '] ('/' :: x :: X') = none := tagP_cons_ne _ _ (by decide)
    have h3 : tagP [' '] ('/' :: x :: X') = none := tagP_cons_ne _ _ (by decide)
    have h4 : tagP [',', ' '] ('/' :: x :: X') = none := tagP_cons_ne _ _ (by decide)
    have hs : tagP ['/'] ('/' :: x :: X') = some (x :: X', ['/']) := by
      simpa using tagP_self_append ['/'] (x :: X')
    simp [sepAlt, altP, e1, e2, e3, e4, e5, h1, h2, h3, h4, hs]

/-- A parenthesized amount group never matches input that does not start
with `'('`, at any recursion fuel. -/
theorem amt_parensF_none {n : Nat} {x : Char} (X : List Char) (hx : x ≠ '(') :
    amt_parensF n (x :: X) = none := by
  cases n with
  | zero => rfl
  | succ m => simp [amt_parensF, pBind, charP, hx]

/-- Core of the two-amount form: `amount1 sep amount1` assembled by
`parse_n_amount`, for any separator `s` that `sepAlt` recognizes in front
of the second amount and that cannot extend the first unit. -/
theorem parse_n_amount_pair_aux {s N1 U1 N2 U2 : List Char}
    (hN10 : N1 ≠ []) (hN1 : ∀ c ∈ N1, isDigitC c = true)
    (hU10 : U1 ≠ []) (hU1 : ∀ c ∈ U1, isAlphaC c = true)
    (hN20 : N2 ≠ []) (hN2 : ∀ c ∈ N2, isDigitC c = true)
    (hU20 : U2 ≠ []) (hU2 : ∀ c ∈ U2, isAlphaC c = true)
    (hsep : sepAlt (s ++ (N2 ++ ' ' :: U2)) = some (N2 ++ ' ' :: U2, s))
    (hsalpha : headNot isAlphaC (s ++ (N2 ++ ' ' :: U2))) :
    parse_n_amount (N1 ++ ' ' :: (U1 ++ (s ++ (N2 ++ ' ' :: U2)))) =
      some ([], [⟨String.mk U1, (decVal N1 : Rat), none⟩,
                 ⟨String.mk U2, (decVal N2 : Rat), none⟩]) := by
  have a1 := @amount1_digits N1 U1 (s ++ (N2 ++ ' ' :: U2)) hN10 hN1 hU10 hU1 hsalpha
  have a2 : amount1 (N2 ++ ' ' :: U2) =
      some ([], [⟨String.mk U2, (decVal N2 : Rat), none⟩]) := by
    have := @amount1_digits N2 U2 [] hN20 hN2 hU20 hU2 trivial
    rwa [List.append_nil] at this
  have hpar : ∀ n, amt_parensF n (N2 ++ ' ' :: U2) = none := by
    intro n
    cases N2 with
    | nil => exact absurd rfl hN20
    | cons n2 N2' =>
      rw [List.cons_append]
      exact amt_parensF_none _ (ne_of_class (hN2 n2 (by simp)) (by decide))
  simp [parse_n_amount, amount2With, altP, pBind, pPure, a1, hsep, hpar, a2]

/-! ## Consumption: every parser returns a suffix of its input -/

/-- A parser only consumes a prefix: the remaining input is a suffix. -/
def Consumes {α : Type} (p : P α) : Prop :=
  ∀ i r a, p i = some (r, a) → r <:+ i

theorem consumes_pPure {α : Type} (a : α) : Consumes (pPure a) := by
  intro i r b h
  simp only [pPure, Option.some.injEq, Prod.mk.injEq] at h
  rw [← h.1]

theorem consumes_pBind {α β : Type} {p : P α} {f : α → P β} (hp : Consumes p)
    (hf : ∀ a, Consumes (f a)) : Consumes (pBind p f) := by
  intro i r b h
  cases hpi : p i with
  | none => simp [pBind, hpi] at h
  | some v =>
    obtain ⟨r1, a⟩ := v
    simp only [pBind, hpi] at h
    exact (hf a r1 r b h).trans (hp i r1 a hpi)

theorem consumes_pMap {α β : Type} {p : P α} {f : α → β} (hp : Consumes p) :
    Consumes (pMap p f) :=
  consumes_pBind hp (fun a => consumes_pPure (f a))

theorem consumes_altP {α : Type} {p q : P α} (hp : Consumes p) (hq : Consumes q) :
    Consumes (altP p q) := by
  intro i r a h
  cases hpi : p i with
  | none =>
    simp only [altP, hpi] at h
    exact hq i r a h
  | some v =>
    simp only [altP, hpi] at h
    obtain ⟨r1, a1⟩ := v
    cases h
    exact hp i r a (by rw [hpi])

theorem consumes_optP {α : Type} {p : P α} (hp : Consumes p) : Consumes (optP p) := by
  intro i r a h
  cases hpi : p i with
  | none =>
    simp only [optP, hpi, Option.some.injEq, Prod.mk.injEq] at h
    rw [← h.1]
  | some v =>
    obtain ⟨r1, a1⟩ := v
    simp only [optP, hpi, Option.some.injEq, Prod.mk.injEq] at h
    rw [← h.1]
    exact hp i r1 a1 hpi

theorem consumes_failP {α : Type} : Consumes (failP : P α) := by
  intro i r a h
  exact Option.noConfusion h

theorem consumes_tagP (t : List Char) : Consumes (tagP t) := by
  intro i r a h
  exact ⟨t, (tagP_some h).2.symm⟩

theorem consumes_charP (c : Char) : Consumes (charP c) := by
  intro i r a h
  cases i with
  | nil => simp [charP] at h
  | cons d u =>
    by_cases hd : d = c
    · simp only [charP, if_pos hd, Option.some.injEq, Prod.mk.injEq] at h
      rw [← h.1]
      exact List.suffix_cons _ _
    · simp [charP, hd] at h

theorem consumes_satisfyP (f : Char → Bool) : Consumes (satisfyP f) := by
  intro i r a h
  cases i with
  | nil => simp [satisfyP] at h
  | cons d u =>
    by_cases hd : f d = true
    · simp only [satisfyP, if_pos hd, Option.some.injEq, Prod.mk.injEq] at h
      rw [← h.1]
      exact List.suffix_cons _ _
    · rw [satisfyP, if_neg (by simp [hd])] at h
      exact Option.noConfusion h

theorem consumes_takeWhile1P (f : Char → Bool) : Consumes (takeWhile1P f) := by
  intro i r a h
  unfold takeWhile1P at h
  cases htw : i.takeWhile f with
  | nil => rw [htw] at h; exact Option.noConfusion h
  | cons c u =>
    rw [htw] at h
    simp only [Option.some.injEq, Prod.mk.injEq] at h
    rw [← h.1]
    exact List.dropWhile_suffix f

theorem consumes_takeWhile0P (f : Char → Bool) : Consumes (takeWhile0P f) := by
  intro i r a h
  simp only [takeWhile0P, Option.some.injEq, Prod.mk.injEq] at h
  rw [← h.1]
  exact List.dropWhile_suffix f

theorem notLineEnding_cons (c : Char) (t : List Char) :
    notLineEnding (c :: t) =
      if c = '\n' then some (c :: t, [])
      else if c = '\r' then
        match t with
        | d :: _ => if d = '\n' then some (c :: t, []) else none
        | [] => none
      else
        match notLineEnding t with
        | none => none
        | some (r, cs) => some (r, c :: cs) := by
  rw [notLineEnding.eq_def]

/-- `not_line_ending` consumes exactly its returned text. -/
theorem notLineEnding_decomp : ∀ {i r m : List Char},
    notLineEnding i = some (r, m) → i = m ++ r := by
  intro i
  induction i with
  | nil =>
    intro r m h
    simp only [notLineEnding, Option.some.injEq, Prod.mk.injEq] at h
    rw [← h.1, ← h.2]
    rfl
  | cons c t ih =>
    intro r m h
    by_cases hn : c = '\n'
    · rw [notLineEnding_cons, if_pos hn] at h
      simp only [Option.some.injEq, Prod.mk.injEq] at h
      rw [← h.1, ← h.2]
      rfl
    · by_cases hcr : c = '\r'
      · rw [notLineEnding_cons, if_neg hn, if_pos hcr] at h
        cases t with
        | nil => exact Option.noConfusion h
        | cons d t' =>
          have hred : (match d :: t' with
              | d1 :: _ => if d1 = '\n' then some (c :: d :: t', ([] : List Char)) else none
              | [] => none) =
              if d = '\n' then some (c :: d :: t', ([] : List Char)) else none := rfl
          rw [hred] at h
          by_cases hd : d = '\n'
          · rw [if_pos hd] at h
            simp only [Option.some.injEq, Prod.mk.injEq] at h
            rw [← h.1, ← h.2]
            rfl
          · rw [if_neg hd] at h
            exact Option.noConfusion h
      · rw [notLineEnding_cons, if_neg hn, if_neg hcr] at h
        cases hnle : notLineEnding t with
        | none => rw [hnle] at h; exact Option.noConfusion h
        | some v =>
          obtain ⟨r', cs⟩ := v
          rw [hnle] at h
          simp only [Option.some.injEq, Prod.mk.injEq] at h
          rw [← h.2, ← h.1, List.cons_append, ← ih hnle]

theorem consumes_expDigits (sgn v : Rat) (esign : Bool) : Consumes (expDigits sgn v esign) := by
  intro i r a h
  unfold expDigits at h
  cases htw : i.takeWhile isDigitC with
  | nil => rw [htw] at h; exact Option.noConfusion h
  | cons q qs =>
    rw [htw] at h
    simp only [Option.some.injEq, Prod.mk.injEq] at h
    rw [← h.1]
    exact List.dropWhile_suffix _

theorem consumes_expP (sgn v : Rat) : Consumes (expP sgn v) := by
  intro i r a h
  cases i with
  | nil =>
    simp only [expP, Option.some.injEq, Prod.mk.injEq] at h
    rw [← h.1]
  | cons c t =>
    by_cases he : c = 'e' ∨ c = 'E'
    · simp only [expP, if_pos he] at h
      cases t with
      | nil => exact absurd h (by simp [expDigits])
      | cons d u =>
        have hred : (match d :: u with
            | [] => expDigits sgn v true []
            | d :: u =>
              if d = '+' then expDigits sgn v true u
              else if d = '-' then expDigits sgn v false u
              else expDigits sgn v true (d :: u)) =
            (if d = '+' then expDigits sgn v true u
             else if d = '-' then expDigits sgn v false u
             else expDigits sgn v true (d :: u)) := rfl
        rw [hred] at h
        by_cases hdp : d = '+'
        · rw [if_pos hdp] at h
          exact (consumes_expDigits _ _ _ u r a h).trans
            ((List.suffix_cons d u).trans (List.suffix_cons c _))
        · rw [if_neg hdp] at h
          by_cases hdm : d = '-'
          · rw [if_pos hdm] at h
            exact (consumes_expDigits _ _ _ u r a h).trans
              ((List.suffix_cons d u).trans (List.suffix_cons c _))
          · rw [if_neg hdm] at h
            exact (consumes_expDigits _ _ _ _ r a h).trans (List.suffix_cons c _)
    · have h1 : c ≠ 'e' := fun e => he (Or.inl e)
      have h2 : c ≠ 'E' := fun e => he (Or.inr e)
      rw [expP_cons t sgn v h1 h2] at h
      simp only [Option.some.injEq, Prod.mk.injEq] at h
      rw [← h.1]

theorem consumes_floatFrac (sgn v : Rat) : Consumes (floatFrac sgn v) := by
  intro i r a h
  cases i with
  | nil => exact consumes_expP sgn v [] r a h
  | cons c u =>
    by_cases hc : c = '.'
    · simp only [floatFrac, if_pos hc] at h
      exact (consumes_expP _ _ _ r a h).trans
        ((List.dropWhile_suffix _).trans (List.suffix_cons c u))
    · simp only [floatFrac, if_neg hc] at h
      exact consumes_expP _ _ _ r a h

theorem consumes_floatMant (sgn : Rat) : Consumes (floatMant sgn) := by
  intro i r a h
  cases i with
  | nil => exact Option.noConfusion h
  | cons c t =>
    by_cases hd : isDigitC c = true
    · simp only [floatMant, hd, if_pos] at h
      exact (consumes_floatFrac _ _ _ r a h).trans (List.dropWhile_suffix _)
    · simp only [floatMant, hd] at h
      by_cases hc : c = '.'
      · rw [if_pos hc] at h
        cases htw : t.takeWhile isDigitC with
        | nil => rw [htw] at h; exact Option.noConfusion h
        | cons q qs =>
          rw [htw] at h
          exact (consumes_expP _ _ _ r a h).trans
            ((List.dropWhile_suffix _).trans (List.suffix_cons c t))
      · rw [if_neg hc] at h
        exact Option.noConfusion h

theorem consumes_floatP : Consumes floatP := by
  intro i r a h
  cases i with
  | nil => exact Option.noConfusion h
  | cons c t =>
    by_cases hp : c = '+'
    · simp only [floatP, if_pos hp] at h
      exact (consumes_floatMant _ _ r a h).trans (List.suffix_cons c t)
    · simp only [floatP, if_neg hp] at h
      by_cases hm : c = '-'
      · rw [if_pos hm] at h
        exact (consumes_floatMant _ _ r a h).trans (List.suffix_cons c t)
      · rw [if_neg hm] at h
        exact consumes_floatMant _ _ r a h

theorem consumes_alpha1 : Consumes alpha1 := consumes_takeWhile1P _

theorem consumes_space1 : Consumes space1 := consumes_takeWhile1P _

theorem consumes_space0 : Consumes space0 := consumes_takeWhile0P _

theorem consumes_v_fraction : Consumes v_fraction := consumes_pMap (consumes_satisfyP _)

theorem consumes_n_fraction : Consumes n_fraction :=
  consumes_pBind consumes_floatP fun _ =>
    consumes_pBind (consumes_tagP _) fun _ =>
      consumes_pBind consumes_floatP fun _ => consumes_pPure _

theorem consumes_text_number : Consumes text_number := consumes_pMap (consumes_tagP _)

theorem consumes_fraction_number : Consumes fraction_number := by
  refine consumes_altP ?_ ?_
  · exact consumes_pBind
      (consumes_optP (consumes_pBind consumes_floatP fun _ =>
        consumes_pBind consumes_space0 fun _ => consumes_pPure _))
      fun _ => consumes_pBind consumes_v_fraction fun _ => consumes_pPure _
  · exact consumes_pBind
      (consumes_optP (consumes_pBind consumes_floatP fun _ =>
        consumes_pBind consumes_space1 fun _ => consumes_pPure _))
      fun _ => consumes_pBind consumes_n_fraction fun _ => consumes_pPure _

theorem consumes_num : Consumes num :=
  consumes_altP consumes_fraction_number (consumes_altP consumes_text_number consumes_floatP)

theorem consumes_num_or_range : Consumes num_or_range :=
  consumes_pBind consumes_num fun _ =>
    consumes_pBind (consumes_optP (consumes_pBind consumes_space0 fun _ =>
      consumes_pBind (consumes_tagP _) fun _ =>
        consumes_pBind consumes_space0 fun _ =>
          consumes_pBind consumes_num fun _ => consumes_pPure _))
      fun _ => consumes_pPure _

theorem consumes_amount1 : Consumes amount1 :=
  consumes_pBind (consumes_optP (consumes_tagP _)) fun _ =>
    consumes_pBind consumes_num_or_range fun _ =>
      consumes_pBind consumes_space0 fun _ =>
        consumes_pBind consumes_alpha1 fun _ => consumes_pPure _

theorem consumes_sepAlt : Consumes sepAlt :=
  consumes_altP (consumes_tagP _) (consumes_altP (consumes_tagP _)
    (consumes_altP (consumes_tagP _) (consumes_altP (consumes_tagP _) (consumes_tagP _))))

theorem consumes_amount2With {paren : P (List Amount)} (hp : Consumes paren) :
    Consumes (amount2With paren) :=
  consumes_pBind consumes_amount1 fun _ =>
    consumes_pBind consumes_sepAlt fun _ =>
      consumes_pBind (consumes_altP hp consumes_amount1) fun _ => consumes_pPure _

theorem consumes_amt_parensF : ∀ n, Consumes (amt_parensF n) := by
  intro n
  induction n with
  | zero => exact consumes_failP
  | succ m ih =>
    exact consumes_pBind (consumes_charP _) fun _ =>
      consumes_pBind (consumes_altP (consumes_amount2With ih) consumes_amount1) fun _ =>
        consumes_pBind (consumes_charP _) fun _ => consumes_pPure _

theorem consumes_parse_n_amount : Consumes parse_n_amount := by
  intro i r a h
  exact consumes_altP (consumes_amount2With (consumes_amt_parensF i.length))
    consumes_amount1 i r a h

theorem consumes_amt_parens : Consumes amt_parens := by
  intro i r a h
  exact consumes_amt_parensF (i.length + 1) i r a h

theorem consumes_text : Consumes text :=
  consumes_altP consumes_alpha1 (consumes_altP consumes_space1 (consumes_tagP _))

theorem consumes_many0Fuel {α : Type} {p : P α} (hp : Consumes p) :
    ∀ n, Consumes (many0Fuel p n) := by
  intro n
  induction n with
  | zero =>
    intro i r a h
    simp only [many0Fuel, Option.some.injEq, Prod.mk.injEq] at h
    rw [← h.1]
  | succ m ih =>
    intro i r a h
    cases hpi : p i with
    | none =>
      simp only [many0Fuel, hpi, Option.some.injEq, Prod.mk.injEq] at h
      rw [← h.1]
    | some v =>
      obtain ⟨r1, a1⟩ := v
      simp only [many0Fuel, hpi] at h
      by_cases hlen : r1.length < i.length
      · rw [if_pos hlen] at h
        cases hm : many0Fuel p m r1 with
        | none => rw [hm] at h; exact Option.noConfusion h
        | some w =>
          obtain ⟨r2, as⟩ := w
          rw [hm] at h
          simp only [Option.some.injEq, Prod.mk.injEq] at h
          rw [← h.1]
          exact (ih r1 r2 as hm).trans (hp i r1 a1 hpi)
      · rw [if_neg hlen] at h
        exact Option.noConfusion h

theorem consumes_many1P {α : Type} {p : P α} (hp : Consumes p) : Consumes (many1P p) := by
  intro i r a h
  cases hpi : p i with
  | none =>
    simp only [many1P, hpi] at h
    exact Option.noConfusion h
  | some v =>
    obtain ⟨r1, a1⟩ := v
    simp only [many1P, hpi] at h
    by_cases hlen : r1.length < i.length
    · rw [if_pos hlen] at h
      cases hm : many0Fuel p i.length r1 with
      | none => rw [hm] at h; exact Option.noConfusion h
      | some w =>
        obtain ⟨r2, as⟩ := w
        rw [hm] at h
        simp only [Option.some.injEq, Prod.mk.injEq] at h
        rw [← h.1]
        exact (consumes_many0Fuel hp i.length r1 r2 as hm).trans (hp i r1 a1 hpi)
    · rw [if_neg hlen] at h
      exact Option.noConfusion h

/-! ## Inversion helpers for the top-level grammar -/

theorem pBind_inv {α β : Type} {p : P α} {f : α → P β} {i r : List Char} {b : β}
    (h : pBind p f i = some (r, b)) :
    ∃ r1 a, p i = some (r1, a) ∧ f a r1 = some (r, b) := by
  cases hpi : p i with
  | none => simp [pBind, hpi] at h
  | some v =>
    obtain ⟨r1, a⟩ := v
    exact ⟨r1, a, rfl, by simpa [pBind, hpi] using h⟩

theorem optP_inv {α : Type} {p : P α} {i r : List Char} {oa : Option α}
    (h : optP p i = some (r, oa)) :
    (r = i ∧ oa = none) ∨ ∃ a, oa = some a ∧ p i = some (r, a) := by
  cases hpi : p i with
  | none =>
    simp only [optP, hpi, Option.some.injEq, Prod.mk.injEq] at h
    exact Or.inl ⟨h.1.symm, h.2.symm⟩
  | some v =>
    obtain ⟨r1, a⟩ := v
    simp only [optP, hpi, Option.some.injEq, Prod.mk.injEq] at h
    refine Or.inr ⟨a, h.2.symm, ?_⟩
    rw [h.1]

theorem optP_some_inv {α : Type} {p : P α} {i r : List Char} {a : α}
    (h : optP p i = some (r, some a)) : p i = some (r, a) := by
  rcases optP_inv h with ⟨_, hno⟩ | ⟨a1, ha1, hp⟩
  · exact Option.noConfusion hno
  · cases ha1
    exact hp

theorem pPure_inv {α : Type} {a b : α} {i r : List Char} (h : pPure a i = some (r, b)) :
    r = i ∧ b = a := by
  simp only [pPure, Option.some.injEq, Prod.mk.injEq] at h
  exact ⟨h.1.symm, h.2.symm⟩

/-! ## Normalization lemmas for `parse_ingredient` -/

theorem normalizeIng_rewrite {t : RawParts} {a : Amount} (hname : rawName t = "")
    (hamts : rawAmounts t = [a]) :
    normalizeIng t = ⟨a.unit, [{ a with unit := "whole" }], rawModifier t⟩ := by
  unfold normalizeIng
  rw [hamts, hname]

theorem normalizeIng_keep {t : RawParts}
    (h : rawName t ≠ "" ∨ (rawAmounts t).length ≠ 1) :
    normalizeIng t = ⟨rawName t, rawAmounts t, rawModifier t⟩ := by
  unfold normalizeIng
  rcases hamts : rawAmounts t with _ | ⟨a, rest⟩
  · rfl
  · rcases rest with _ | ⟨b, rest'⟩
    · have hname : rawName t ≠ "" := by
        rcases h with h | h
        · exact h
        · exact absurd (by rw [hamts]; rfl) h
      cases hl : rawName t with
      | mk l =>
        cases l with
        | nil => exact absurd hl hname
        | cons c cs => rfl
    · rfl

theorem parse_ingredient_of_raw {input rest : List Char} {t : RawParts}
    (h : rawParse input = some (rest, t)) :
    parse_ingredient input = some (rest, normalizeIng t) := by
  simp [parse_ingredient, h]

theorem normalizeIng_modifier (t : RawParts) :
    (normalizeIng t).modifier = rawModifier t := by
  unfold normalizeIng
  rcases rawAmounts t with _ | ⟨a, rest⟩
  · rfl
  · rcases rest with _ | ⟨b, rest'⟩
    · cases hl : rawName t with
      | mk l => cases l with
        | nil => rfl
        | cons c cs => rfl
    · rfl

/-! ## Claim theorems -/

/-- C1: for every input line whose raw parse yields an empty name and
exactly one Amount, `parse_ingredient` returns an Ingredient whose name is
that Amount's parsed unit and whose single amount has its unit replaced by
`"whole"`; when the raw name is non-empty or the number of amounts differs
from one, the raw name and amounts are returned unchanged. -/
theorem claim_C1_bare_quantity_rewrite (input rest : List Char) (t : RawParts)
    (h : rawParse input = some (rest, t)) :
    (∀ a : Amount, rawName t = "" → rawAmounts t = [a] →
      parse_ingredient input =
        some (rest, ⟨a.unit, [{ a with unit := "whole" }], rawModifier t⟩)) ∧
    (rawName t ≠ "" ∨ (rawAmounts t).length ≠ 1 →
      parse_ingredient input = some (rest, ⟨rawName t, rawAmounts t, rawModifier t⟩)) := by
  have hpi := parse_ingredient_of_raw h
  constructor
  · intro a hname hamts
    rw [hpi, normalizeIng_rewrite hname hamts]
  · intro hk
    rw [hpi, normalizeIng_keep hk]

theorem claim_C1_witness :
    rawParse "1 egg".data = some ([], ⟨some [⟨"egg", 1, none⟩], none, none, none, []⟩) ∧
    parse_ingredient "1 egg".data =
      some ([], ⟨"egg", [⟨"whole", 1, none⟩], none⟩) := by
  have hraw : rawParse "1 egg".data =
      some ([], ⟨some [⟨"egg", 1, none⟩], none, none, none, []⟩) := by decide
  exact ⟨hraw, (claim_C1_bare_quantity_rewrite _ _ _ hraw).1 ⟨"egg", 1, none⟩ rfl rfl⟩

/-- C2: when the top-level grammar does not match, `parse_ingredient`
fails as a whole and `from_str` returns a structured error whose message
contains the offending input; when it matches, `from_str` returns exactly
the parsed `Ingredient` and never a partial one. (The model is a total
function, so no input can panic or abort.) -/
theorem claim_C2_failure_is_total (input : String) (verbose : Bool) :
    (parse_ingredient input.data = none →
      ∃ msg, from_str input verbose = .error msg ∧ input.data <:+: msg.data) ∧
    (∀ rest ing, parse_ingredient input.data = some (rest, ing) →
      from_str input verbose = .ok ing) ∧
    ((∃ ing, from_str input verbose = .ok ing) ∨
      (∃ msg, from_str input verbose = .error msg)) := by
  refine ⟨?_, ?_, ?_⟩
  · intro hfail
    refine ⟨"failed to parse '" ++ input ++ "': ", by simp [from_str, hfail], ?_⟩
    refine ⟨"failed to parse '".data, "': ".data, ?_⟩
    simp [String.data_append]
  · intro rest ing hok
    simp [from_str, hok]
  · cases hp : parse_ingredient input.data with
    | none =>
      exact Or.inr ⟨"failed to parse '" ++ input ++ "': ", by simp [from_str, hp]⟩
    | some v => exact Or.inl ⟨v.2, by simp [from_str, hp]⟩

theorem claim_C2_witness :
    ∃ msg, from_str "a\rb" true = .error msg ∧ "a\rb".data <:+: msg.data :=
  (claim_C2_failure_is_total "a\rb" true).1 (by decide)

/-- C3 counterexample: a parsed line whose modifier is produced with no
`", "` separator anywhere in the input, refuting "the modifier is the
verbatim remainder of the line after a `\", \"` separator" as a statement
about every parsed line. -/
theorem claim_C3_counterexample :
    parse_ingredient "butter @melted".data =
      some ([], ⟨"butter", [], some "@melted"⟩) ∧
    ¬ (", ".data <:+: "butter @melted".data) := by
  constructor
  · decide
  · decide

/-- C3 (amended): the modifier is the verbatim text captured after the
*optional* `", "` separator, up to the line ending: it is `None` exactly
when that text is empty and is never `Some ""`; and whenever the `", "`
separator was consumed, the input literally decomposes as
`pre ++ ", " ++ modifier text ++ unparsed rest`. -/
theorem claim_C3_modifier_verbatim (input rest : List Char) (t : RawParts)
    (h : rawParse input = some (rest, t)) :
    ∃ ing, parse_ingredient input = some (rest, ing) ∧
      (ing.modifier = none ↔ t.modText = []) ∧
      ing.modifier ≠ some "" ∧
      (∀ m, ing.modifier = some m → m.data = t.modText) ∧
      (t.commaSep ≠ none →
        ∃ pre, input = pre ++ ", ".data ++ (t.modText ++ rest)) := by
  refine ⟨normalizeIng t, parse_ingredient_of_raw h, ?_, ?_, ?_, ?_⟩
  · rw [normalizeIng_modifier]
    cases hm : t.modText with
    | nil => simp [rawModifier, hm]
    | cons c cs => simp [rawModifier, hm]
  · rw [normalizeIng_modifier]
    cases hm : t.modText with
    | nil => simp [rawModifier, hm]
    | cons c cs =>
      simp only [rawModifier, hm, ne_eq, Option.some.injEq]
      intro he
      exact List.cons_ne_nil c cs (congrArg String.data he)
  · intro m hm
    rw [normalizeIng_modifier] at hm
    cases hmt : t.modText with
    | nil => rw [rawModifier, hmt] at hm; exact Option.noConfusion hm
    | cons c cs =>
      rw [rawModifier, hmt] at hm
      simp only [Option.some.injEq] at hm
      rw [← hm]
  · intro hcs
    obtain ⟨i1, amts1, h1, hrest1⟩ := pBind_inv h
    obtain ⟨i2, sp, h2, hrest2⟩ := pBind_inv hrest1
    obtain ⟨i3, chunks, h3, hrest3⟩ := pBind_inv hrest2
    obtain ⟨i4, amts2, h4, hrest4⟩ := pBind_inv hrest3
    obtain ⟨i5, commaS, h5, hrest5⟩ := pBind_inv hrest4
    obtain ⟨i6, modT, h6, hrest6⟩ := pBind_inv hrest5
    obtain ⟨hi6, ht⟩ := pPure_inv hrest6
    have hcsf : t.commaSep = commaS := by rw [ht]
    have hmtf : t.modText = modT := by rw [ht]
    rcases optP_inv h5 with ⟨hi, hnone⟩ | ⟨s, hsome, htag⟩
    · exact absurd (hcsf.trans hnone) hcs
    · obtain ⟨hms, hdecomp⟩ := tagP_some htag
      have hnle := notLineEnding_decomp h6
      have s1 : i1 <:+ input := consumes_optP consumes_parse_n_amount _ _ _ h1
      have s2 : i2 <:+ i1 := consumes_space0 _ _ _ h2
      have s3 : i3 <:+ i2 := consumes_optP (consumes_many1P consumes_text) _ _ _ h3
      have s4 : i4 <:+ i3 := consumes_optP consumes_amt_parens _ _ _ h4
      obtain ⟨pre, hpre⟩ := s4.trans (s3.trans (s2.trans s1))
      refine ⟨pre, ?_⟩
      rw [← hpre, hdecomp, hnle, hmtf, ← hi6]
      simp [List.append_assoc]

theorem claim_C3_witness :
    ∃ ing, parse_ingredient "flour, sifted".data = some ([], ing) ∧
      (ing.modifier = none ↔ "sifted".data = []) ∧
      ing.modifier ≠ some "" ∧
      (∀ m, ing.modifier = some m → m.data = "sifted".data) ∧
      ((some ", ".data : Option (List Char)) ≠ none →
        ∃ pre, "flour, sifted".data = pre ++ ", ".data ++ ("sifted".data ++ [])) :=
  claim_C3_modifier_verbatim "flour, sifted".data []
    ⟨none, some ["flour".data], none, some ", ".data, "sifted".data⟩ (by decide)

/-- C4: every mixed-number input `a b/c` (digits, whitespace, slash
fraction with nonzero denominator) is parsed by `num` as `a + b/c`,
consuming the whole input — the fraction alternatives are tried before the
bare-decimal fallback; in particular `"1 1/8"` gives `1.125` and
`"1 1/4"` gives `1.25`, not a parse stopping after `"1"`. -/
theorem claim_C4_mixed_number :
    (∀ A W B C : List Char,
      A ≠ [] → (∀ c ∈ A, isDigitC c = true) →
      W ≠ [] → (∀ c ∈ W, isSpaceC c = true) →
      B ≠ [] → (∀ c ∈ B, isDigitC c = true) →
      C ≠ [] → (∀ c ∈ C, isDigitC c = true) → decVal C ≠ 0 →
      num (A ++ (W ++ (B ++ '/' :: C))) =
        some ([], (decVal A : Rat) + (decVal B : Rat) / (decVal C : Rat))) ∧
    num "1 1/8".data = some ([], 9/8) ∧
    num "1 1/4".data = some ([], 5/4) := by
  refine ⟨?_, by decide, by decide⟩
  intro A W B C hA0 hA hW0 hW hB0 hB hC0 hC _
  exact num_mixed hA0 hA hW0 hW hB0 hB hC0 hC

theorem claim_C4_witness :
    num (['1'] ++ ([' '] ++ (['1'] ++ '/' :: ['8']))) =
      some ([], (decVal ['1'] : Rat) + (decVal ['1'] : Rat) / (decVal ['8'] : Rat)) :=
  claim_C4_mixed_number.1 ['1'] [' '] ['1'] ['8'] (by decide) (by decide) (by decide)
    (by decide) (by decide) (by decide) (by decide) (by decide) (by decide)

/-- C5: the vulgar-fraction parser maps each known glyph to its exact
value (`¾`↦3/4, `⅛`↦1/8, `¼`↦1/4, `⅓`↦1/3, `½`↦1/2; the source divides
the same integers in `f32`), and every other character of the two accepted
unicode ranges U+00BC–U+00BE and U+2150–U+215E parses successfully with
value `0.0` instead of failing. -/
theorem claim_C5_vulgar_fractions :
    (∀ r, v_fraction ('¾' :: r) = some (r, 3/4)) ∧
    (∀ r, v_fraction ('⅛' :: r) = some (r, 1/8)) ∧
    (∀ r, v_fraction ('¼' :: r) = some (r, 1/4)) ∧
    (∀ r, v_fraction ('⅓' :: r) = some (r, 1/3)) ∧
    (∀ r, v_fraction ('½' :: r) = some (r, 1/2)) ∧
    (∀ n r, ((0xBC ≤ n ∧ n ≤ 0xBE) ∨ (0x2150 ≤ n ∧ n ≤ 0x215E)) →
      Char.ofNat n ∉ (['¾', '⅛', '¼', '⅓', '½'] : List Char) →
      v_fraction (Char.ofNat n :: r) = some (r, 0)) := by
  refine ⟨?_, ?_, ?_, ?_, ?_, ?_⟩
  · intro r
    rw [v_fraction_cons_true r (by decide), show vfracVal '¾' = 3/4 from by decide]
  · intro r
    rw [v_fraction_cons_true r (by decide), show vfracVal '⅛' = 1/8 from by decide]
  · intro r
    rw [v_fraction_cons_true r (by decide), show vfracVal '¼' = 1/4 from by decide]
  · intro r
    rw [v_fraction_cons_true r (by decide), show vfracVal '⅓' = 1/3 from by decide]
  · intro r
    rw [v_fraction_cons_true r (by decide), show vfracVal '½' = 1/2 from by decide]
  · intro n r hn hkn
    rcases hn with ⟨h1, h2⟩ | ⟨h1, h2⟩ <;> interval_cases n <;>
      first
        | exact absurd (by decide) hkn
        | rw [v_fraction_cons_true r (by decide), show vfracVal _ = 0 from by decide]

theorem claim_C5_witness : v_fraction (Char.ofNat 0x2150 :: []) = some ([], 0) :=
  claim_C5_vulgar_fractions.2.2.2.2.2 0x2150 [] (by decide) (by decide)

/-- C6: for all digit-string numerals `a`, `b` and every alphabetic unit,
`"a-b unit"` parses (via `amount1`) to the single Amount with value `a`,
upper bound `b` and that unit, for arbitrary and possibly asymmetric
space/tab runs around the dash; in particular `"2¼-2.5 cups"` and
`"2 ¼ - 2.5 cups"` parse to the same single Amount. -/
theorem claim_C6_range_dash_whitespace :
    (∀ A ws1 ws2 B U : List Char,
      A ≠ [] → (∀ c ∈ A, isDigitC c = true) →
      (∀ c ∈ ws1, isSpaceC c = true) → (∀ c ∈ ws2, isSpaceC c = true) →
      B ≠ [] → (∀ c ∈ B, isDigitC c = true) →
      U ≠ [] → (∀ c ∈ U, isAlphaC c = true) →
      amount1 (A ++ (ws1 ++ '-' :: (ws2 ++ (B ++ ' ' :: U)))) =
        some ([], [⟨String.mk U, (decVal A : Rat), some (decVal B : Rat)⟩])) ∧
    parse_amount "2¼-2.5 cups" = .ok [⟨"cups", 9/4, some (5/2)⟩] ∧
    parse_amount "2 ¼ - 2.5 cups" = .ok [⟨"cups", 9/4, some (5/2)⟩] := by
  refine ⟨?_, by decide, by decide⟩
  intro A ws1 ws2 B U hA0 hA hws1 hws2 hB0 hB hU0 hU
  exact amount1_range hA0 hA hws1 hws2 hB0 hB hU0 hU

theorem claim_C6_witness :
    amount1 (['1'] ++ ([] ++ '-' :: ([] ++ (['2'] ++ ' ' :: "cups".data)))) =
      some ([], [⟨String.mk "cups".data, (decVal ['1'] : Rat),
        some (decVal ['2'] : Rat)⟩]) :=
  claim_C6_range_dash_whitespace.1 ['1'] [] [] ['2'] "cups".data (by decide) (by decide)
    (by decide) (by decide) (by decide) (by decide) (by decide) (by decide)

/-- C7: two canonical single amounts joined by any of the separators
`"; "`, `" / "`, `" "`, `", "`, `"/"` — tried in exactly that order by
`sepAlt` — are parsed by the multi-amount parser into the 2-element amount
list in left-to-right textual order. -/
theorem claim_C7_two_amount_separators :
    ∀ s ∈ [[';', ' '], [' ', '/', ' '], [' '], [',', ' '], ['/']],
      ∀ N1 U1 N2 U2 : List Char,
        N1 ≠ [] → (∀ c ∈ N1, isDigitC c = true) →
        U1 ≠ [] → (∀ c ∈ U1, isAlphaC c = true) →
        N2 ≠ [] → (∀ c ∈ N2, isDigitC c = true) →
        U2 ≠ [] → (∀ c ∈ U2, isAlphaC c = true) →
        parse_n_amount (N1 ++ ' ' :: (U1 ++ (s ++ (N2 ++ ' ' :: U2)))) =
          some ([], [⟨String.mk U1, (decVal N1 : Rat), none⟩,
                     ⟨String.mk U2, (decVal N2 : Rat), none⟩]) := by
  intro s hs N1 U1 N2 U2 hN10 hN1 hU10 hU1 hN20 hN2 hU20 hU2
  cases N2 with
  | nil => exact absurd rfl hN20
  | cons n2 N2' =>
    have hx : isDigitC n2 = true := hN2 n2 (by simp)
    have hall := sepAlt_cases (N2' ++ ' ' :: U2) hx
    have hshape : (n2 :: N2') ++ ' ' :: U2 = n2 :: (N2' ++ ' ' :: U2) :=
      List.cons_append _ _ _
    simp only [List.mem_cons, List.mem_singleton] at hs
    rcases hs with rfl | rfl | rfl | rfl | rfl | hfalse
    · have hsep := hall.1
      rw [← hshape] at hsep
      exact parse_n_amount_pair_aux hN10 hN1 hU10 hU1 hN20 hN2 hU20 hU2 hsep
        (by exact (by decide : isAlphaC ';' = false))
    · have hsep := hall.2.1
      rw [← hshape] at hsep
      exact parse_n_amount_pair_aux hN10 hN1 hU10 hU1 hN20 hN2 hU20 hU2 hsep
        (by exact (by decide : isAlphaC ' ' = false))
    · have hsep := hall.2.2.1
      rw [← hshape] at hsep
      exact parse_n_amount_pair_aux hN10 hN1 hU10 hU1 hN20 hN2 hU20 hU2 hsep
        (by exact (by decide : isAlphaC ' ' = false))
    · have hsep := hall.2.2.2.1
      rw [← hshape] at hsep
      exact parse_n_amount_pair_aux hN10 hN1 hU10 hU1 hN20 hN2 hU20 hU2 hsep
        (by exact (by decide : isAlphaC ',' = false))
    · have hsep := hall.2.2.2.2
      rw [← hshape] at hsep
      exact parse_n_amount_pair_aux hN10 hN1 hU10 hU1 hN20 hN2 hU20 hU2 hsep
        (by exact (by decide : isAlphaC '/' = false))
    · exact absurd hfalse (by simp)

theorem claim_C7_witness :
    parse_n_amount (['1'] ++ ' ' :: ("g".data ++ ([';', ' '] ++ (['2'] ++ ' ' :: "g".data)))) =
      some ([], [⟨String.mk "g".data, (decVal ['1'] : Rat), none⟩,
                 ⟨String.mk "g".data, (decVal ['2'] : Rat), none⟩]) :=
  claim_C7_two_amount_separators [';', ' '] (by simp) ['1'] "g".data ['2'] "g".data
    (by decide) (by decide) (by decide) (by decide) (by decide) (by decide)
    (by decide) (by decide)

/-- C8: when a line has a trailing parenthetical amount-group after a
non-empty name, its amounts are appended after the leading amounts, in
parse order, and the name and modifier come from their own grammar parts
only; the `"6 ounces unsalted butter (1½ sticks; 168.75g)"` example yields
exactly the three amounts ounces, sticks, g in that order. -/
theorem claim_C8_trailing_parenthetical :
    (∀ (input rest : List Char) (t : RawParts) (as2 : List Amount),
      rawParse input = some (rest, t) → t.amts2 = some as2 → rawName t ≠ "" →
      parse_ingredient input = some (rest,
        ⟨rawName t,
         (match t.amts1 with | some a => a | none => []) ++ as2,
         rawModifier t⟩)) ∧
    parse_ingredient "6 ounces unsalted butter (1½ sticks; 168.75g)".data =
      some ([], ⟨"unsalted butter",
        [⟨"ounces", 6, none⟩, ⟨"sticks", 3/2, none⟩, ⟨"g", 675/4, none⟩], none⟩) := by
  constructor
  · intro input rest t as2 h h2 hname
    rw [parse_ingredient_of_raw h, normalizeIng_keep (Or.inl hname)]
    simp [rawAmounts, h2]
  · decide

theorem claim_C8_witness :
    parse_ingredient "6 ounces butter (2 sticks)".data =
      some ([], ⟨"butter", [⟨"ounces", 6, none⟩, ⟨"sticks", 2, none⟩], none⟩) := by
  have h := claim_C8_trailing_parenthetical.1
    "6 ounces butter (2 sticks)".data []
    ⟨some [⟨"ounces", 6, none⟩], some ["butter".data, " ".data],
     some [⟨"sticks", 2, none⟩], none, []⟩
    [⟨"sticks", 2, none⟩] (by decide) rfl (by decide)
  exact h

/-- C9 counterexample: an Ingredient with an empty amount list renders as
`"n/a"` immediately followed by the name, with no separating space —
`"n/aegg"`, not `"n/a egg"`. -/
theorem claim_C9_counterexample :
    fmtIngredient ⟨"egg", [], none⟩ = "n/aegg" ∧
    ("n/aegg" : String) ≠ "n/a" ++ " " ++ "egg" := by
  constructor
  · decide
  · decide

/-- C9 (amended): an Amount renders as `"<value> <unit>"`; an Ingredient
renders as the amounts joined by `" / "` with one trailing space — or the
bare string `"n/a"` with *no* trailing space when the amount list is
empty — then the name, then `", <modifier>"` exactly when the modifier is
present. -/
theorem claim_C9_formatter :
    (∀ a : Amount, fmtAmount a = ratToString a.value ++ " " ++ a.unit) ∧
    (∀ ing : Ingredient,
      fmtIngredient ing =
        (match ing.amounts with
         | [] => "n/a"
         | a :: rest => String.intercalate " / " ((a :: rest).map fmtAmount) ++ " ") ++
        ing.name ++
        (match ing.modifier with
         | some m => ", " ++ m
         | none => "")) ∧
    fmtIngredient ⟨"flour", [⟨"cups", 12, none⟩], some "sifted"⟩ = "12 cups flour, sifted" := by
  refine ⟨fun a => rfl, ?_, by decide⟩
  intro ing
  unfold fmtIngredient
  cases ing.amounts with
  | nil => rfl
  | cons a rest => rfl

/-- C10: formatting an Amount ignores `upper_value` entirely: with the
same unit and value, `some w` and `none` render identically, so the parsed
range `"1-2 cups"` renders as `"1 cups"` with the upper bound dropped. -/
theorem claim_C10_upper_value_dropped :
    (∀ (u : String) (v w : Rat), fmtAmount ⟨u, v, some w⟩ = fmtAmount ⟨u, v, none⟩) ∧
    parse_amount "1-2 cups" = .ok [⟨"cups", 1, some 2⟩] ∧
    fmtAmount ⟨"cups", 1, some 2⟩ = "1 cups" := by
  exact ⟨fun u v w => rfl, by decide, by decide⟩
